import Mathlib

/-!
Verification of the GPT-2 positional encoder forward kernels
(`dev/cuda/positional_forward.cu`): the CPU reference `encoder_forward_cpu`,
the two CUDA kernels `encoder_forward_kernel1` / `encoder_forward_kernel2`,
their launchers, the dispatcher `encoder_forward`, and the benchmark
arithmetic in `main`.

Modelling choices:
* A float buffer is a total map from flattened index to an exact rational
  value (`Buf := Nat → ℚ`); single-precision addition is modelled as exact
  rational addition, so "equal within 1e-5" statements are settled as exact
  equalities (which imply any tolerance).
* A CUDA kernel is embedded as its per-worker body, a function from the
  current output buffer and the worker's global index `idx` to the updated
  buffer; launching a grid folds the body over every worker index in
  `[0, grid_size * block_size)` (the workers write pairwise disjoint
  locations, so any sequential order represents the parallel execution).
* Loop counters and indices are `Nat`; all of the program's index
  arithmetic is on nonnegative quantities that stay far below 2^31, except
  for the benchmark byte count of `main`, which is additionally modelled in
  wrapping 32-bit signed arithmetic where the claim is about overflow.
-/

/-- A flat float buffer on the device or host: flattened index to exact value. -/
abbrev Buf : Type := Nat → ℚ

/-- A single store `buf[i] = v` into a flat buffer. -/
def writeBuf (buf : Buf) (i : Nat) (v : ℚ) : Buf :=
  fun j => if j = i then v else buf j

/-- The channel loop shared by `encoder_forward_cpu` and
`encoder_forward_kernel1`: `for (i = 0; i < C; i++) out_bt[i] = wte_ix[i] + wpe_t[i]`
with `out_bt = out + base`, `wte_ix = wte + ix*C`, `wpe_t = wpe + t*C`. -/
def channelLoop (wte wpe : Buf) (ix t C base : Nat) (acc : Buf) : Buf :=
  (List.range C).foldl
    (fun a i => writeBuf a (base + i) (wte (ix * C + i) + wpe (t * C + i))) acc

/-- Embedding of `encoder_forward_cpu`: the sequential reference oracle,
iterating `b` over `[0,B)`, `t` over `[0,T)`, then the channel loop, writing
`out[b*T*C + t*C + i] = wte[inp[b*T+t]*C + i] + wpe[t*C + i]`. -/
def encoder_forward_cpu (out : Buf) (inp : Nat → Nat) (wte wpe : Buf)
    (B T C : Nat) : Buf :=
  (List.range B).foldl
    (fun acc b =>
      (List.range T).foldl
        (fun acc2 t => channelLoop wte wpe (inp (b * T + t)) t C (b * T * C + t * C) acc2)
        acc)
    out

/-- Embedding of the per-worker body of `encoder_forward_kernel1`
(thread-per-token): worker `idx` is active iff `idx < N = B*T`; it decomposes
`b = idx / T`, `t = idx % T` and runs the channel loop. -/
def encoder_forward_kernel1_body (inp : Nat → Nat) (wte wpe : Buf)
    (B T C : Nat) (out : Buf) (idx : Nat) : Buf :=
  if idx < B * T then
    let b := idx / T
    let t := idx % T
    channelLoop wte wpe (inp (b * T + t)) t C (b * T * C + t * C) out
  else out

/-- Embedding of the per-worker body of `encoder_forward_kernel2`
(thread-per-element): worker `idx` is active iff `idx < N = B*T*C`; it
decomposes `bt = idx / C`, `b = bt / T`, `t = bt % T`, `c = idx % C` and
performs the single store `out[b*T*C + t*C + c] = wte[ix*C + c] + wpe[t*C + c]`. -/
def encoder_forward_kernel2_body (inp : Nat → Nat) (wte wpe : Buf)
    (B T C : Nat) (out : Buf) (idx : Nat) : Buf :=
  if idx < B * T * C then
    let bt := idx / C
    let b := bt / T
    let t := bt % T
    let c := idx % C
    let ix := inp (b * T + t)
    writeBuf out (b * T * C + t * C + c) (wte (ix * C + c) + wpe (t * C + c))
  else out

/-- Executing a kernel body for every worker index in the launched range
`[0, numWorkers)`.  All workers of one launch write pairwise disjoint
locations, so the sequential fold represents the parallel execution. -/
def launchGrid (body : Buf → Nat → Buf) (numWorkers : Nat) (out : Buf) : Buf :=
  (List.range numWorkers).foldl body out

/-- Modelled from the spec: `ceil_div` lives in `dev/cuda/common.h`, which is
not part of this repository snapshot; the spec prescribes the number of
partition groups as `ceil(N / block_size)`, the usual `(N + d - 1) / d`. -/
def ceil_div (dividend divisor : Nat) : Nat :=
  (dividend + divisor - 1) / divisor

/-- Embedding of the launcher `encoder_forward1`: `N = B*T`,
`grid_size = ceil_div N block_size`, kernel 1 run on `grid_size * block_size`
workers. -/
def encoder_forward1 (out : Buf) (inp : Nat → Nat) (wte wpe : Buf)
    (B T C block_size : Nat) : Buf :=
  let N := B * T
  let grid_size := ceil_div N block_size
  launchGrid (encoder_forward_kernel1_body inp wte wpe B T C)
    (grid_size * block_size) out

/-- Embedding of the launcher `encoder_forward2`: `N = B*T*C`,
`grid_size = ceil_div N block_size`, kernel 2 run on `grid_size * block_size`
workers. -/
def encoder_forward2 (out : Buf) (inp : Nat → Nat) (wte wpe : Buf)
    (B T C block_size : Nat) : Buf :=
  let N := B * T * C
  let grid_size := ceil_div N block_size
  launchGrid (encoder_forward_kernel2_body inp wte wpe B T C)
    (grid_size * block_size) out

/-- Outcome of the dispatcher `encoder_forward`: either a kernel variant ran
and produced an output buffer, or the process printed a message and exited
with the given status. -/
inductive DispatchResult : Type where
  | ran : Buf → DispatchResult
  | exited : String → Nat → DispatchResult

/-- Embedding of the dispatcher `encoder_forward`: `switch (kernel_num)` with
cases 1 and 2; the default case prints "Invalid kernel number" and calls
`exit(1)` without invoking any kernel. -/
def encoder_forward (kernel_num : Int) (out : Buf) (inp : Nat → Nat)
    (wte wpe : Buf) (B T C block_size : Nat) : DispatchResult :=
  if kernel_num = 1 then
    DispatchResult.ran (encoder_forward1 out inp wte wpe B T C block_size)
  else if kernel_num = 2 then
    DispatchResult.ran (encoder_forward2 out inp wte wpe B T C block_size)
  else
    DispatchResult.exited "Invalid kernel number\n" 1

/-- The value that all three computations store at flattened output index `j`
(for `j < B*T*C`), expressed through kernel 2's decomposition
`b = (j/C)/T`, `t = (j/C)%T`, `c = j%C`. -/
def outVal (inp : Nat → Nat) (wte wpe : Buf) (T C j : Nat) : ℚ :=
  wte (inp (j / C / T * T + j / C % T) * C + j % C) + wpe (j / C % T * C + j % C)

/-- Flattened `out` indices written by worker `idx` of kernel 1 (instrumented
footprint of `encoder_forward_kernel1_body`: inactive workers touch nothing;
an active worker writes `out_bt[i] = out[b*T*C + t*C + i]` for `i < C`). -/
def kernel1_writes (B T C idx : Nat) : List Nat :=
  if idx < B * T then
    (List.range C).map (fun i => idx / T * T * C + idx % T * C + i)
  else []

/-- Flattened `inp` indices read by worker `idx` of kernel 1
(`ix = inp[b * T + t]`). -/
def kernel1_reads_inp (B T idx : Nat) : List Nat :=
  if idx < B * T then [idx / T * T + idx % T] else []

/-- Flattened `wte` indices read by worker `idx` of kernel 1
(`wte_ix[i] = wte[ix*C + i]` for `i < C`). -/
def kernel1_reads_wte (inp : Nat → Nat) (B T C idx : Nat) : List Nat :=
  if idx < B * T then
    (List.range C).map (fun i => inp (idx / T * T + idx % T) * C + i)
  else []

/-- Flattened `wpe` indices read by worker `idx` of kernel 1
(`wpe_t[i] = wpe[t*C + i]` for `i < C`). -/
def kernel1_reads_wpe (B T C idx : Nat) : List Nat :=
  if idx < B * T then (List.range C).map (fun i => idx % T * C + i) else []

/-- Flattened `out` index written by worker `idx` of kernel 2 (instrumented
footprint of `encoder_forward_kernel2_body`). -/
def kernel2_writes (B T C idx : Nat) : List Nat :=
  if idx < B * T * C then
    [idx / C / T * T * C + idx / C % T * C + idx % C]
  else []

/-- Flattened `inp` index read by worker `idx` of kernel 2. -/
def kernel2_reads_inp (B T C idx : Nat) : List Nat :=
  if idx < B * T * C then [idx / C / T * T + idx / C % T] else []

/-- Flattened `wte` index read by worker `idx` of kernel 2. -/
def kernel2_reads_wte (inp : Nat → Nat) (B T C idx : Nat) : List Nat :=
  if idx < B * T * C then
    [inp (idx / C / T * T + idx / C % T) * C + idx % C]
  else []

/-- Flattened `wpe` index read by worker `idx` of kernel 2. -/
def kernel2_reads_wpe (B T C idx : Nat) : List Nat :=
  if idx < B * T * C then [idx / C % T * C + idx % C] else []

/-- Kernel 2's index decomposition `bt = idx / C`, `b = bt / T`, `t = bt % T`,
`c = idx % C`. -/
def kernel2_decode (T C idx : Nat) : Nat × Nat × Nat :=
  let bt := idx / C
  let b := bt / T
  let t := bt % T
  let c := idx % C
  (b, t, c)

/-- Wrap a mathematical integer into the 32-bit two's-complement range
`[-2^31, 2^31)`, as a C `int` stores it. -/
def wrap32 (x : Int) : Int :=
  (x + 2 ^ 31) % 2 ^ 32 - 2 ^ 31

/-- One C `int` multiplication: the mathematical product wrapped to 32 bits. -/
def int32_mul (a b : Int) : Int :=
  wrap32 (a * b)

/-- The benchmark line `long memory_ops = B * T * C * 4 * 4;`: the product is
evaluated left to right in `int` arithmetic before widening to `long`. -/
def memory_ops (B T C : Int) : Int :=
  int32_mul (int32_mul (int32_mul (int32_mul B T) C) 4) 4

/-- The block sizes the benchmark loop iterates over. -/
def block_sizes : List Nat :=
  [32, 64, 128, 256, 512, 1024]

/-- The byte count each iteration of the benchmark loop feeds into the
bandwidth estimate; the expression does not mention the block size. -/
def benchmark_memory_ops (B T C : Int) : List Int :=
  block_sizes.map (fun _ => memory_ops B T C)

/-- C's `isspace` on the default locale, as `atoi` skips leading whitespace. -/
def isSpace (ch : Char) : Bool :=
  ch == ' ' || ch == '\t' || ch == '\n' || ch == '\x0b' || ch == '\x0c' ||
    ch == '\r'

/-- Accumulate leading decimal digits, stopping at the first non-digit. -/
def atoiDigits : List Char → Nat → Nat
  | [], acc => acc
  | ch :: rest, acc =>
    if ch.isDigit then atoiDigits rest (acc * 10 + (ch.toNat - 48)) else acc

/-- Modelled C standard library `atoi` (not repository code): skip leading
whitespace, consume one optional sign, then leading decimal digits; a string
with no leading digit sequence yields 0.  Overflow is not modelled — the
selectors of interest are small. -/
def atoi (s : String) : Int :=
  match s.data.dropWhile isSpace with
  | [] => 0
  | ch :: rest =>
    if ch = '-' then -(atoiDigits rest 0 : Int)
    else if ch = '+' then (atoiDigits rest 0 : Int)
    else (atoiDigits (ch :: rest) 0 : Int)

/-- How far `main` gets: either the dispatcher exited the process (before
`validate_result` and before any timing), or the dispatch ran and `main`
proceeds to validate the device output against the CPU output. -/
inductive MainOutcome : Type where
  | exitedAtDispatch : String → Nat → MainOutcome
  | validated : Buf → Buf → MainOutcome

/-- The selector `main` uses: `kernel_num = 2;` overridden by
`kernel_num = atoi(argv[1]);` when a first argument is present. -/
def main_kernel_num (argv1 : Option String) : Int :=
  match argv1 with
  | some s => atoi s
  | none => 2

/-- The correctness-checking slice of `main`: compute the CPU reference, then
dispatch the selected kernel at block size 256; if the dispatcher exits, no
validation or timing happens. -/
def main_run (argv1 : Option String) (out d_out : Buf) (inp : Nat → Nat)
    (wte wpe : Buf) (B T C : Nat) : MainOutcome :=
  let kernel_num := main_kernel_num argv1
  let cpu_out := encoder_forward_cpu out inp wte wpe B T C
  match encoder_forward kernel_num d_out inp wte wpe B T C 256 with
  | DispatchResult.exited msg status => MainOutcome.exitedAtDispatch msg status
  | DispatchResult.ran dev_out => MainOutcome.validated cpu_out dev_out

/-- Token indices of the concrete scenario of the spec: `inp = [[0,1],[2,0]]`. -/
def inp_c : Nat → Nat :=
  fun k => [0, 1, 2, 0].getD k 0

/-- Token embedding table of the concrete scenario:
`wte = [[1,1],[2,2],[3,3]]`. -/
def wte_c : Buf :=
  fun k => ([1, 1, 2, 2, 3, 3] : List ℚ).getD k 0

/-- Positional embedding table of the concrete scenario:
`wpe = [[10,10],[20,20]]`. -/
def wpe_c : Buf :=
  fun k => ([10, 10, 20, 20] : List ℚ).getD k 0

/-- The all-zero initial buffer. -/
def zeroBuf : Buf :=
  fun _ => 0

section FoldCharacterisation

/-- Characterisation of a left fold of guarded window writes.  Step `t`
(when `t < N`) overwrites exactly the window `[base + t*w, base + t*w + w)`
with values `V t _` and leaves everything else unchanged; folding the steps
for `t = 0, …, n-1` therefore overwrites exactly `[base, base + min n N * w)`,
the element at `j` coming from step `(j - base) / w`. -/
theorem foldl_window_apply (F : Buf → Nat → Buf) (V : Nat → Nat → ℚ)
    (N w base : Nat) (n : Nat)
    (hF : ∀ t, t < n → ∀ acc j,
      F acc t j =
        if t < N ∧ base + t * w ≤ j ∧ j < base + t * w + w then V t j else acc j)
    (buf : Buf) (j : Nat) :
    (List.range n).foldl F buf j =
      if base ≤ j ∧ j < base + min n N * w then V ((j - base) / w) j
      else buf j := by
  induction n with
  | zero =>
    simp only [List.range_zero, List.foldl_nil, Nat.zero_min, Nat.zero_mul,
      Nat.add_zero]
    rw [if_neg (by omega)]
  | succ n ih =>
    have hstep : ∀ t, t < n → ∀ acc j,
        F acc t j =
          if t < N ∧ base + t * w ≤ j ∧ j < base + t * w + w then V t j
          else acc j :=
      fun t ht => hF t (Nat.lt_succ_of_lt ht)
    rw [List.range_succ, List.foldl_append, List.foldl_cons, List.foldl_nil,
      hF n (Nat.lt_succ_self n)]
    have hnw : (n + 1) * w = n * w + w := Nat.succ_mul n w
    by_cases hwin : n < N ∧ base + n * w ≤ j ∧ j < base + n * w + w
    · -- the last step writes position `j`
      have hmin : min (n + 1) N = n + 1 := by omega
      have hg : min (n + 1) N * w = n * w + w := by rw [hmin, hnw]
      have hdivj : (j - base) / w = n := by
        have hw : 0 < w := by omega
        obtain ⟨r, hr, hrlt⟩ : ∃ r, j - base = n * w + r ∧ r < w :=
          ⟨j - base - n * w, by omega, by omega⟩
        rw [hr, Nat.mul_comm n w, Nat.mul_add_div hw, Nat.div_eq_of_lt hrlt]
        omega
      rw [if_pos hwin, if_pos (by omega), hdivj]
    · rw [if_neg hwin, ih hstep]
      rcases le_or_lt N n with hNn | hnN
      · have hmin : min (n + 1) N = min n N := by omega
        rw [hmin]
      · have hmin1 : min (n + 1) N = n + 1 := by omega
        have hmin2 : min n N = n := by omega
        rw [hmin1, hmin2]
        -- the two guards agree because `j` is not in step `n`'s window
        by_cases hj : base ≤ j ∧ j < base + n * w
        · rw [if_pos hj, if_pos (by omega)]
        · rw [if_neg hj, if_neg (by omega)]

end FoldCharacterisation

section IndexArithmetic

/-- Decoding a flattened index `j` inside the window of pair `(b, t)`:
its quotients and remainders by `C` and `T` recover `b`, `t` and the
channel offset. -/
theorem window_decode (b t T C j : Nat) (ht : t < T)
    (h1 : b * (T * C) + t * C ≤ j) (h2 : j < b * (T * C) + t * C + C) :
    j / C = b * T + t ∧ j / C / T = b ∧ j / C % T = t ∧
      j % C = j - (b * (T * C) + t * C) := by
  have hC : 0 < C := by omega
  have hT : 0 < T := by omega
  have hj : j = C * (b * T + t) + (j - (b * (T * C) + t * C)) := by
    have hcast : C * (b * T + t) = b * (T * C) + t * C := by ring
    omega
  have hrC : j - (b * (T * C) + t * C) < C := by omega
  have hdiv : j / C = b * T + t := by
    rw [hj, Nat.mul_add_div hC, Nat.div_eq_of_lt hrC]
    omega
  have hswap : b * T + t = T * b + t := by ring
  have hdd : j / C / T = b := by
    rw [hdiv, hswap, Nat.mul_add_div hT, Nat.div_eq_of_lt ht]
    omega
  have hmt : j / C % T = t := by
    rw [hdiv, hswap, Nat.mul_add_mod, Nat.mod_eq_of_lt ht]
  have hmc : j % C = j - (b * (T * C) + t * C) := by
    nth_rewrite 1 [hj]
    rw [Nat.mul_add_mod, Nat.mod_eq_of_lt hrC]
  exact ⟨hdiv, hdd, hmt, hmc⟩

/-- Covering bound for the grid size: `ceil_div N bs * bs ≥ N` whenever the
block size is positive, so the launched range covers every worker index. -/
theorem ceil_div_mul_le (N bs : Nat) (h : 0 < bs) : N ≤ ceil_div N bs * bs := by
  simp only [ceil_div]
  have hdm := Nat.div_add_mod (N + bs - 1) bs
  have hr : (N + bs - 1) % bs < bs := Nat.mod_lt _ h
  have hcomm : (N + bs - 1) / bs * bs = bs * ((N + bs - 1) / bs) :=
    Nat.mul_comm _ _
  omega

/-- Row-major flattening stays inside the buffer: `x*C + c < X*C` for a row
`x < X` and column `c < C`. -/
theorem row_index_lt (x c X C : Nat) (hx : x < X) (hc : c < C) :
    x * C + c < X * C := by
  have h1 : (x + 1) * C ≤ X * C := Nat.mul_le_mul_right C (by omega)
  have h2 : (x + 1) * C = x * C + C := Nat.succ_mul x C
  omega

/-- The three-dimensional flattened index stays inside `[0, B*T*C)`. -/
theorem flat_index_lt (b t c B T C : Nat) (hb : b < B) (ht : t < T)
    (hc : c < C) : b * T * C + t * C + c < B * T * C := by
  have h1 : b * T + t < B * T := row_index_lt b t B T hb ht
  have h2 : (b * T + t) * C + c < B * T * C := row_index_lt (b * T + t) c (B * T) C h1 hc
  have h3 : (b * T + t) * C = b * T * C + t * C := by ring
  omega

/-- Re-encoding kernel 2's decomposition of `idx` gives back `idx`: the
written flattened offset of an active worker is its own index. -/
theorem kernel2_offset_eq (T C idx : Nat) :
    idx / C / T * T * C + idx / C % T * C + idx % C = idx := by
  have h1 : idx / C / T * T + idx / C % T = idx / C :=
    Nat.div_add_mod' (idx / C) T
  have h2 : idx / C * C + idx % C = idx := Nat.div_add_mod' idx C
  calc idx / C / T * T * C + idx / C % T * C + idx % C
      = (idx / C / T * T + idx / C % T) * C + idx % C := by ring
    _ = idx / C * C + idx % C := by rw [h1]
    _ = idx := h2

/-- An active worker of kernel 2 decodes in-range coordinates. -/
theorem kernel2_decode_lt (B T C idx : Nat) (h : idx < B * T * C) :
    idx / C / T < B ∧ idx / C % T < T ∧ idx % C < C := by
  have hC : 0 < C := by
    rcases Nat.eq_zero_or_pos C with h0 | hpos
    · subst h0; omega
    · exact hpos
  have hT : 0 < T := by
    rcases Nat.eq_zero_or_pos T with h0 | hpos
    · subst h0
      have : B * 0 * C = 0 := by ring
      omega
    · exact hpos
  have hbt : idx / C < B * T := by
    rw [Nat.div_lt_iff_lt_mul hC]
    have : B * T * C = B * T * C := rfl
    omega
  have hb : idx / C / T < B := by
    rw [Nat.div_lt_iff_lt_mul hT]
    omega
  exact ⟨hb, Nat.mod_lt _ hT, Nat.mod_lt _ hC⟩

/-- `atoiDigits` returns its accumulator when the list has no leading digit. -/
theorem atoiDigits_no_digit (l : List Char) (acc : Nat)
    (h : ∀ ch ∈ l, ch.isDigit = false) : atoiDigits l acc = acc := by
  cases l with
  | nil => rfl
  | cons ch rest =>
    simp only [atoiDigits]
    rw [if_neg]
    simp [h ch (List.mem_cons_self ch rest)]

end IndexArithmetic

section Characterisations

/-- Pointwise characterisation of the channel loop: it overwrites exactly the
window `[base, base + C)`, the element at `j` receiving
`wte[ix*C + (j-base)] + wpe[t*C + (j-base)]`. -/
theorem channelLoop_apply (wte wpe : Buf) (ix t C base : Nat) (acc : Buf)
    (j : Nat) :
    channelLoop wte wpe ix t C base acc j =
      if base ≤ j ∧ j < base + C then
        wte (ix * C + (j - base)) + wpe (t * C + (j - base))
      else acc j := by
  have hF : ∀ i, i < C → ∀ a k,
      writeBuf a (base + i) (wte (ix * C + i) + wpe (t * C + i)) k =
        if i < C ∧ base + i * 1 ≤ k ∧ k < base + i * 1 + 1 then
          wte (ix * C + i) + wpe (t * C + i)
        else a k := by
    intro i hi a k
    simp only [writeBuf]
    by_cases hk : k = base + i
    · rw [if_pos hk, if_pos (by omega)]
    · rw [if_neg hk, if_neg (by omega)]
  have h := foldl_window_apply
    (fun a i => writeBuf a (base + i) (wte (ix * C + i) + wpe (t * C + i)))
    (fun i _ => wte (ix * C + i) + wpe (t * C + i)) C 1 base C hF acc j
  simp only [channelLoop]
  rw [h, Nat.min_self, Nat.mul_one, Nat.div_one]

/-- Pointwise characterisation of the body of the `t` loop of the oracle for
a fixed batch `b`: it overwrites exactly the window `[b*T*C, b*T*C + T*C)`
with the canonical values. -/
theorem cpu_row_apply (inp : Nat → Nat) (wte wpe : Buf) (b T C : Nat)
    (acc : Buf) (j : Nat) :
    (List.range T).foldl
        (fun acc2 t =>
          channelLoop wte wpe (inp (b * T + t)) t C (b * T * C + t * C) acc2)
        acc j =
      if b * (T * C) ≤ j ∧ j < b * (T * C) + T * C then
        outVal inp wte wpe T C j
      else acc j := by
  have hF : ∀ t, t < T → ∀ a k,
      channelLoop wte wpe (inp (b * T + t)) t C (b * T * C + t * C) a k =
        if t < T ∧ b * (T * C) + t * C ≤ k ∧ k < b * (T * C) + t * C + C then
          outVal inp wte wpe T C k
        else a k := by
    intro t ht a k
    rw [channelLoop_apply]
    have hbase : b * T * C = b * (T * C) := by ring
    by_cases hk : b * T * C + t * C ≤ k ∧ k < b * T * C + t * C + C
    · rw [if_pos hk, if_pos ⟨ht, by omega⟩]
      obtain ⟨hd, hdd, hmt, hmc⟩ :=
        window_decode b t T C k ht (by omega) (by omega)
      simp only [outVal]
      rw [hdd, hmt, hmc, hbase]
    · rw [if_neg hk, if_neg (by omega)]
  have h := foldl_window_apply
    (fun acc2 t =>
      channelLoop wte wpe (inp (b * T + t)) t C (b * T * C + t * C) acc2)
    (fun _ k => outVal inp wte wpe T C k) T C (b * (T * C)) T hF acc j
  rw [h, Nat.min_self]

/-- Pointwise characterisation of the Reference Oracle: `encoder_forward_cpu`
overwrites exactly the flattened range `[0, B*T*C)` with the canonical values
and leaves the rest of the buffer unchanged. -/
theorem encoder_forward_cpu_apply (out : Buf) (inp : Nat → Nat)
    (wte wpe : Buf) (B T C : Nat) (j : Nat) :
    encoder_forward_cpu out inp wte wpe B T C j =
      if j < B * T * C then outVal inp wte wpe T C j else out j := by
  have hF : ∀ b, b < B → ∀ a k,
      (List.range T).foldl
          (fun acc2 t =>
            channelLoop wte wpe (inp (b * T + t)) t C (b * T * C + t * C) acc2)
          a k =
        if b < B ∧ 0 + b * (T * C) ≤ k ∧ k < 0 + b * (T * C) + T * C then
          outVal inp wte wpe T C k
        else a k := by
    intro b hb a k
    rw [cpu_row_apply]
    by_cases hk : b * (T * C) ≤ k ∧ k < b * (T * C) + T * C
    · rw [if_pos hk, if_pos ⟨hb, by omega⟩]
    · rw [if_neg hk, if_neg (by omega)]
  have h := foldl_window_apply
    (fun acc b =>
      (List.range T).foldl
        (fun acc2 t =>
          channelLoop wte wpe (inp (b * T + t)) t C (b * T * C + t * C) acc2)
        acc)
    (fun _ k => outVal inp wte wpe T C k) B (T * C) 0 B hF out j
  simp only [encoder_forward_cpu]
  rw [h, Nat.min_self]
  have hassoc : B * (T * C) = B * T * C := by ring
  by_cases hj : j < B * T * C
  · rw [if_pos (by omega), if_pos hj]
  · rw [if_neg (by omega), if_neg hj]

/-- Pointwise characterisation of a full launch of kernel 1: as soon as the
launched range covers all `B*T` workers, the output agrees with the canonical
values on `[0, B*T*C)` and is untouched elsewhere. -/
theorem kernel1_launch_apply (inp : Nat → Nat) (wte wpe : Buf)
    (B T C W : Nat) (hW : B * T ≤ W) (out : Buf) (j : Nat) :
    launchGrid (encoder_forward_kernel1_body inp wte wpe B T C) W out j =
      if j < B * T * C then outVal inp wte wpe T C j else out j := by
  have hF : ∀ idx, idx < W → ∀ a k,
      encoder_forward_kernel1_body inp wte wpe B T C a idx k =
        if idx < B * T ∧ 0 + idx * C ≤ k ∧ k < 0 + idx * C + C then
          outVal inp wte wpe T C k
        else a k := by
    intro idx _ a k
    simp only [encoder_forward_kernel1_body]
    by_cases hact : idx < B * T
    · rw [if_pos hact, channelLoop_apply]
      have hT : 0 < T := by
        rcases Nat.eq_zero_or_pos T with h0 | hpos
        · subst h0; omega
        · exact hpos
      have ht : idx % T < T := Nat.mod_lt _ hT
      have hdm : idx / T * T + idx % T = idx := Nat.div_add_mod' idx T
      have hbase : idx / T * T * C + idx % T * C = idx * C := by
        calc idx / T * T * C + idx % T * C
            = (idx / T * T + idx % T) * C := by ring
          _ = idx * C := by rw [hdm]
      have hbase2 : idx / T * (T * C) + idx % T * C = idx * C := by
        calc idx / T * (T * C) + idx % T * C
            = (idx / T * T + idx % T) * C := by ring
          _ = idx * C := by rw [hdm]
      by_cases hk : idx / T * T * C + idx % T * C ≤ k ∧
          k < idx / T * T * C + idx % T * C + C
      · rw [if_pos hk, if_pos ⟨hact, by omega⟩]
        obtain ⟨hd, hdd, hmt, hmc⟩ :=
          window_decode (idx / T) (idx % T) T C k ht (by omega) (by omega)
        simp only [outVal]
        rw [hdd, hmt, hmc]
        have hassoc : idx / T * T * C = idx / T * (T * C) := by ring
        rw [hassoc]
      · rw [if_neg hk, if_neg (by omega)]
    · rw [if_neg hact, if_neg (by omega)]
  have h := foldl_window_apply (encoder_forward_kernel1_body inp wte wpe B T C)
    (fun _ k => outVal inp wte wpe T C k) (B * T) C 0 W hF out j
  simp only [launchGrid]
  rw [h]
  have hmin : min W (B * T) = B * T := by omega
  rw [hmin]
  by_cases hj : j < B * T * C
  · rw [if_pos (by omega), if_pos hj]
  · rw [if_neg (by omega), if_neg hj]

/-- Pointwise characterisation of a full launch of kernel 2: as soon as the
launched range covers all `B*T*C` workers, the output agrees with the
canonical values on `[0, B*T*C)` and is untouched elsewhere. -/
theorem kernel2_launch_apply (inp : Nat → Nat) (wte wpe : Buf)
    (B T C W : Nat) (hW : B * T * C ≤ W) (out : Buf) (j : Nat) :
    launchGrid (encoder_forward_kernel2_body inp wte wpe B T C) W out j =
      if j < B * T * C then outVal inp wte wpe T C j else out j := by
  have hF : ∀ idx, idx < W → ∀ a k,
      encoder_forward_kernel2_body inp wte wpe B T C a idx k =
        if idx < B * T * C ∧ 0 + idx * 1 ≤ k ∧ k < 0 + idx * 1 + 1 then
          outVal inp wte wpe T C k
        else a k := by
    intro idx _ a k
    simp only [encoder_forward_kernel2_body, writeBuf]
    have hp : idx / C / T * T * C + idx / C % T * C + idx % C = idx := by
      have h1 : idx / C / T * T + idx / C % T = idx / C :=
        Nat.div_add_mod' (idx / C) T
      have h2 : idx / C * C + idx % C = idx := Nat.div_add_mod' idx C
      calc idx / C / T * T * C + idx / C % T * C + idx % C
          = (idx / C / T * T + idx / C % T) * C + idx % C := by ring
        _ = idx / C * C + idx % C := by rw [h1]
        _ = idx := h2
    by_cases hact : idx < B * T * C
    · rw [if_pos hact]
      simp only [writeBuf]
      by_cases hk : k = idx / C / T * T * C + idx / C % T * C + idx % C
      · rw [if_pos hk, if_pos (by omega)]
        have hkidx : k = idx := by omega
        subst hkidx
        simp only [outVal]
      · rw [if_neg hk, if_neg (by omega)]
    · rw [if_neg hact, if_neg (by omega)]
  have h := foldl_window_apply (encoder_forward_kernel2_body inp wte wpe B T C)
    (fun _ k => outVal inp wte wpe T C k) (B * T * C) 1 0 W hF out j
  simp only [launchGrid]
  rw [h]
  have hmin : min W (B * T * C) = B * T * C := by omega
  rw [hmin, Nat.mul_one]
  by_cases hj : j < B * T * C
  · rw [if_pos (by omega), if_pos hj]
  · rw [if_neg (by omega), if_neg hj]

/-- Pointwise characterisation of the launcher `encoder_forward1` for any
positive block size. -/
theorem encoder_forward1_apply (out : Buf) (inp : Nat → Nat) (wte wpe : Buf)
    (B T C block_size : Nat) (h : 0 < block_size) (j : Nat) :
    encoder_forward1 out inp wte wpe B T C block_size j =
      if j < B * T * C then outVal inp wte wpe T C j else out j := by
  simp only [encoder_forward1]
  exact kernel1_launch_apply inp wte wpe B T C _
    (ceil_div_mul_le (B * T) block_size h) out j

/-- Pointwise characterisation of the launcher `encoder_forward2` for any
positive block size. -/
theorem encoder_forward2_apply (out : Buf) (inp : Nat → Nat) (wte wpe : Buf)
    (B T C block_size : Nat) (h : 0 < block_size) (j : Nat) :
    encoder_forward2 out inp wte wpe B T C block_size j =
      if j < B * T * C then outVal inp wte wpe T C j else out j := by
  simp only [encoder_forward2]
  exact kernel2_launch_apply inp wte wpe B T C _
    (ceil_div_mul_le (B * T * C) block_size h) out j

end Characterisations

section Claims

/-- Claim C1: for all `B, T, C ≥ 1` and inputs whose token indices lie in
`[0, V)`, the Reference Oracle `encoder_forward_cpu` satisfies
`out[b,t,c] = wte[inp[b,t], c] + wpe[t, c]` for every valid `(b,t,c)` under
row-major flattened addressing. -/
theorem claim_C1_cpu_oracle_invariant
    (out : Buf) (inp : Nat → Nat) (wte wpe : Buf) (B T C V : Nat)
    (hB : 1 ≤ B) (hT : 1 ≤ T) (hC : 1 ≤ C)
    (hinp : ∀ b t, b < B → t < T → inp (b * T + t) < V)
    (b t c : Nat) (hb : b < B) (ht : t < T) (hc : c < C) :
    encoder_forward_cpu out inp wte wpe B T C (b * T * C + t * C + c) =
      wte (inp (b * T + t) * C + c) + wpe (t * C + c) := by
  rw [encoder_forward_cpu_apply, if_pos (flat_index_lt b t c B T C hb ht hc)]
  have hbr : b * (T * C) = b * T * C := by ring
  have h1 : b * (T * C) + t * C ≤ b * T * C + t * C + c := by omega
  have h2 : b * T * C + t * C + c < b * (T * C) + t * C + C := by omega
  obtain ⟨hd, hdd, hmt, hmc⟩ :=
    window_decode b t T C (b * T * C + t * C + c) ht h1 h2
  simp only [outVal]
  rw [hdd, hmt, hmc]
  have hcc : b * T * C + t * C + c - (b * (T * C) + t * C) = c := by omega
  rw [hcc]

/-- Witness for C1 at `B = T = C = 2`, `V = 3`, `b = t = c = 1`. -/
theorem claim_C1_witness :
    encoder_forward_cpu zeroBuf (fun k => k % 3) (fun k => (k : ℚ))
        (fun k => (k : ℚ)) 2 2 2 (1 * 2 * 2 + 1 * 2 + 1) =
      (((1 * 2 + 1) % 3 * 2 + 1 : ℕ) : ℚ) + ((1 * 2 + 1 : ℕ) : ℚ) := by
  exact claim_C1_cpu_oracle_invariant zeroBuf (fun k => k % 3) (fun k => (k : ℚ))
    (fun k => (k : ℚ)) 2 2 2 3 (by norm_num) (by norm_num) (by norm_num)
    (fun b t _ _ => Nat.mod_lt _ (by norm_num)) 1 1 1 (by norm_num)
    (by norm_num) (by norm_num)

/-- Claim C2: executing every worker of kernel 2's launched range yields an
output buffer equal element for element to the Reference Oracle's (exactly on
rational semantics, hence within the `1e-5` absolute tolerance). -/
theorem claim_C2_kernel2_refines_oracle
    (out1 out2 : Buf) (inp : Nat → Nat) (wte wpe : Buf)
    (B T C V block_size : Nat) (hbs : 0 < block_size)
    (hinp : ∀ b t, b < B → t < T → inp (b * T + t) < V)
    (j : Nat) (hj : j < B * T * C) :
    encoder_forward2 out1 inp wte wpe B T C block_size j =
      encoder_forward_cpu out2 inp wte wpe B T C j ∧
    |encoder_forward2 out1 inp wte wpe B T C block_size j -
        encoder_forward_cpu out2 inp wte wpe B T C j| ≤ 1 / 100000 := by
  rw [encoder_forward2_apply out1 inp wte wpe B T C block_size hbs j,
    encoder_forward_cpu_apply out2 inp wte wpe B T C j, if_pos hj, if_pos hj]
  exact ⟨rfl, by rw [sub_self, abs_zero]; norm_num⟩

/-- Witness for C2 at `B = T = C = V = 1`, block size 32, element 0. -/
theorem claim_C2_witness :
    encoder_forward2 zeroBuf (fun _ => 0) (fun k => (k : ℚ))
        (fun k => (k : ℚ)) 1 1 1 32 0 =
      encoder_forward_cpu zeroBuf (fun _ => 0) (fun k => (k : ℚ))
        (fun k => (k : ℚ)) 1 1 1 0 :=
  (claim_C2_kernel2_refines_oracle zeroBuf zeroBuf (fun _ => 0)
    (fun k => (k : ℚ)) (fun k => (k : ℚ)) 1 1 1 1 32 (by norm_num)
    (fun _ _ _ _ => by norm_num) 0 (by norm_num)).1

/-- Claim C3: executing every worker of kernel 1's launched range yields an
output buffer equal element for element to the Reference Oracle's (exactly on
rational semantics, hence within the `1e-5` absolute tolerance). -/
theorem claim_C3_kernel1_refines_oracle
    (out1 out2 : Buf) (inp : Nat → Nat) (wte wpe : Buf)
    (B T C V block_size : Nat) (hbs : 0 < block_size)
    (hinp : ∀ b t, b < B → t < T → inp (b * T + t) < V)
    (j : Nat) (hj : j < B * T * C) :
    encoder_forward1 out1 inp wte wpe B T C block_size j =
      encoder_forward_cpu out2 inp wte wpe B T C j ∧
    |encoder_forward1 out1 inp wte wpe B T C block_size j -
        encoder_forward_cpu out2 inp wte wpe B T C j| ≤ 1 / 100000 := by
  rw [encoder_forward1_apply out1 inp wte wpe B T C block_size hbs j,
    encoder_forward_cpu_apply out2 inp wte wpe B T C j, if_pos hj, if_pos hj]
  exact ⟨rfl, by rw [sub_self, abs_zero]; norm_num⟩

/-- Witness for C3 at `B = T = C = V = 1`, block size 32, element 0. -/
theorem claim_C3_witness :
    encoder_forward1 zeroBuf (fun _ => 0) (fun k => (k : ℚ))
        (fun k => (k : ℚ)) 1 1 1 32 0 =
      encoder_forward_cpu zeroBuf (fun _ => 0) (fun k => (k : ℚ))
        (fun k => (k : ℚ)) 1 1 1 0 :=
  (claim_C3_kernel1_refines_oracle zeroBuf zeroBuf (fun _ => 0)
    (fun k => (k : ℚ)) (fun k => (k : ℚ)) 1 1 1 1 32 (by norm_num)
    (fun _ _ _ _ => by norm_num) 0 (by norm_num)).1

/-- Claim C4: workers at or beyond the worker count perform no memory access
at all, and under the token-range precondition every access of an active
worker falls inside its buffer: writes into `out` (`< B*T*C`), reads of `inp`
(`< B*T`), of `wte` (`< V*C`) and of `wpe` (`< T*C`). -/
theorem claim_C4_bounds_guard_safety
    (inp : Nat → Nat) (B T C V : Nat)
    (hinp : ∀ b t, b < B → t < T → inp (b * T + t) < V) :
    (∀ idx, B * T ≤ idx →
      kernel1_writes B T C idx = [] ∧ kernel1_reads_inp B T idx = [] ∧
      kernel1_reads_wte inp B T C idx = [] ∧ kernel1_reads_wpe B T C idx = []) ∧
    (∀ idx, B * T * C ≤ idx →
      kernel2_writes B T C idx = [] ∧ kernel2_reads_inp B T C idx = [] ∧
      kernel2_reads_wte inp B T C idx = [] ∧ kernel2_reads_wpe B T C idx = []) ∧
    (∀ idx, idx < B * T →
      (∀ p ∈ kernel1_writes B T C idx, p < B * T * C) ∧
      (∀ p ∈ kernel1_reads_inp B T idx, p < B * T) ∧
      (∀ p ∈ kernel1_reads_wte inp B T C idx, p < V * C) ∧
      (∀ p ∈ kernel1_reads_wpe B T C idx, p < T * C)) ∧
    (∀ idx, idx < B * T * C →
      (∀ p ∈ kernel2_writes B T C idx, p < B * T * C) ∧
      (∀ p ∈ kernel2_reads_inp B T C idx, p < B * T) ∧
      (∀ p ∈ kernel2_reads_wte inp B T C idx, p < V * C) ∧
      (∀ p ∈ kernel2_reads_wpe B T C idx, p < T * C)) := by
  refine ⟨fun idx hidx => ?_, fun idx hidx => ?_, fun idx hidx => ?_,
    fun idx hidx => ?_⟩
  · simp only [kernel1_writes, kernel1_reads_inp, kernel1_reads_wte,
      kernel1_reads_wpe]
    rw [if_neg (by omega), if_neg (by omega), if_neg (by omega),
      if_neg (by omega)]
    exact ⟨rfl, rfl, rfl, rfl⟩
  · simp only [kernel2_writes, kernel2_reads_inp, kernel2_reads_wte,
      kernel2_reads_wpe]
    rw [if_neg (by omega), if_neg (by omega), if_neg (by omega),
      if_neg (by omega)]
    exact ⟨rfl, rfl, rfl, rfl⟩
  · -- active workers of kernel 1
    have hT : 0 < T := by
      rcases Nat.eq_zero_or_pos T with h0 | hpos
      · subst h0; omega
      · exact hpos
    have hb : idx / T < B := by
      rw [Nat.div_lt_iff_lt_mul hT]
      omega
    have ht : idx % T < T := Nat.mod_lt _ hT
    have hix : inp (idx / T * T + idx % T) < V := hinp (idx / T) (idx % T) hb ht
    refine ⟨?_, ?_, ?_, ?_⟩
    · intro p hp
      simp only [kernel1_writes, if_pos hidx, List.mem_map,
        List.mem_range] at hp
      obtain ⟨i, hi, rfl⟩ := hp
      have h1 : idx / T * T * C + idx % T * C + i < B * T * C :=
        flat_index_lt (idx / T) (idx % T) i B T C hb ht hi
      exact h1
    · intro p hp
      simp only [kernel1_reads_inp, if_pos hidx, List.mem_singleton] at hp
      subst hp
      have hdm : idx / T * T + idx % T = idx := Nat.div_add_mod' idx T
      omega
    · intro p hp
      simp only [kernel1_reads_wte, if_pos hidx, List.mem_map,
        List.mem_range] at hp
      obtain ⟨i, hi, rfl⟩ := hp
      exact row_index_lt _ i V C hix hi
    · intro p hp
      simp only [kernel1_reads_wpe, if_pos hidx, List.mem_map,
        List.mem_range] at hp
      obtain ⟨i, hi, rfl⟩ := hp
      exact row_index_lt _ i T C ht hi
  · -- active workers of kernel 2
    obtain ⟨hb, ht, hc⟩ := kernel2_decode_lt B T C idx hidx
    have hix : inp (idx / C / T * T + idx / C % T) < V :=
      hinp (idx / C / T) (idx / C % T) hb ht
    refine ⟨?_, ?_, ?_, ?_⟩
    · intro p hp
      simp only [kernel2_writes, if_pos hidx, List.mem_singleton] at hp
      subst hp
      exact flat_index_lt _ _ _ B T C hb ht hc
    · intro p hp
      simp only [kernel2_reads_inp, if_pos hidx, List.mem_singleton] at hp
      subst hp
      exact row_index_lt _ _ B T hb ht
    · intro p hp
      simp only [kernel2_reads_wte, if_pos hidx, List.mem_singleton] at hp
      subst hp
      exact row_index_lt _ _ V C hix hc
    · intro p hp
      simp only [kernel2_reads_wpe, if_pos hidx, List.mem_singleton] at hp
      subst hp
      exact row_index_lt _ _ T C ht hc

/-- Witness for C4 at `B = T = C = 2`, `V = 3`: the worker guard empties the
footprint of an out-of-range worker of kernel 1. -/
theorem claim_C4_witness :
    kernel1_writes 2 2 2 4 = [] ∧ kernel1_reads_inp 2 2 4 = [] ∧
    kernel1_reads_wte (fun k => k % 3) 2 2 2 4 = [] ∧
    kernel1_reads_wpe 2 2 2 4 = [] :=
  (claim_C4_bounds_guard_safety (fun k => k % 3) 2 2 2 3
    (fun b t _ _ => Nat.mod_lt _ (by norm_num))).1 4 (by norm_num)

/-- Claim C5: for any selector other than 1 and 2 the dispatcher
`encoder_forward` reports "Invalid kernel number" and exits with status 1
without running a kernel; selector 1 runs variant A and selector 2 runs
variant B. -/
theorem claim_C5_dispatcher_selector
    (kernel_num : Int) (out : Buf) (inp : Nat → Nat) (wte wpe : Buf)
    (B T C block_size : Nat) :
    (kernel_num ≠ 1 → kernel_num ≠ 2 →
      encoder_forward kernel_num out inp wte wpe B T C block_size =
        DispatchResult.exited "Invalid kernel number\n" 1) ∧
    encoder_forward 1 out inp wte wpe B T C block_size =
      DispatchResult.ran (encoder_forward1 out inp wte wpe B T C block_size) ∧
    encoder_forward 2 out inp wte wpe B T C block_size =
      DispatchResult.ran (encoder_forward2 out inp wte wpe B T C block_size) := by
  refine ⟨fun h1 h2 => ?_, ?_, ?_⟩
  · simp only [encoder_forward, if_neg h1, if_neg h2]
  · norm_num [encoder_forward]
  · norm_num [encoder_forward]

/-- Witness for C5: selector 3 exits with status 1. -/
theorem claim_C5_witness :
    encoder_forward 3 zeroBuf (fun _ => 0) zeroBuf zeroBuf 1 1 1 32 =
      DispatchResult.exited "Invalid kernel number\n" 1 :=
  (claim_C5_dispatcher_selector 3 zeroBuf (fun _ => 0) zeroBuf zeroBuf
    1 1 1 32).1 (by decide) (by decide)

/-- Claim C6: the launched range `ceil_div N block_size * block_size` covers
all `N` workers for any positive block size, and the output of either
launcher is independent of the chosen block size. -/
theorem claim_C6_block_size_invariance
    (out : Buf) (inp : Nat → Nat) (wte wpe : Buf) (B T C bs1 bs2 : Nat)
    (h1 : 0 < bs1) (h2 : 0 < bs2) :
    B * T ≤ ceil_div (B * T) bs1 * bs1 ∧
    B * T * C ≤ ceil_div (B * T * C) bs1 * bs1 ∧
    encoder_forward1 out inp wte wpe B T C bs1 =
      encoder_forward1 out inp wte wpe B T C bs2 ∧
    encoder_forward2 out inp wte wpe B T C bs1 =
      encoder_forward2 out inp wte wpe B T C bs2 := by
  refine ⟨ceil_div_mul_le _ _ h1, ceil_div_mul_le _ _ h1,
    funext fun j => ?_, funext fun j => ?_⟩
  · rw [encoder_forward1_apply out inp wte wpe B T C bs1 h1 j,
      encoder_forward1_apply out inp wte wpe B T C bs2 h2 j]
  · rw [encoder_forward2_apply out inp wte wpe B T C bs1 h1 j,
      encoder_forward2_apply out inp wte wpe B T C bs2 h2 j]

/-- Witness for C6: block sizes 32 and 64 give the same variant-A output at
`B = T = C = 1`. -/
theorem claim_C6_witness :
    encoder_forward1 zeroBuf (fun _ => 0) zeroBuf zeroBuf 1 1 1 32 =
      encoder_forward1 zeroBuf (fun _ => 0) zeroBuf zeroBuf 1 1 1 64 :=
  (claim_C6_block_size_invariance zeroBuf (fun _ => 0) zeroBuf zeroBuf
    1 1 1 32 64 (by norm_num) (by norm_num)).2.2.1

/-- Claim C7: on the concrete scenario `B=T=C=2`, `V=3`,
`inp = [[0,1],[2,0]]`, `wte = [[1,1],[2,2],[3,3]]`, `wpe = [[10,10],[20,20]]`,
the oracle and both kernel variants (launched at block size 256, as `main`
does) produce exactly `[11,11,22,22,13,13,21,21]`. -/
theorem claim_C7_concrete_scenario :
    (encoder_forward_cpu zeroBuf inp_c wte_c wpe_c 2 2 2 0 = 11 ∧
     encoder_forward_cpu zeroBuf inp_c wte_c wpe_c 2 2 2 1 = 11 ∧
     encoder_forward_cpu zeroBuf inp_c wte_c wpe_c 2 2 2 2 = 22 ∧
     encoder_forward_cpu zeroBuf inp_c wte_c wpe_c 2 2 2 3 = 22 ∧
     encoder_forward_cpu zeroBuf inp_c wte_c wpe_c 2 2 2 4 = 13 ∧
     encoder_forward_cpu zeroBuf inp_c wte_c wpe_c 2 2 2 5 = 13 ∧
     encoder_forward_cpu zeroBuf inp_c wte_c wpe_c 2 2 2 6 = 21 ∧
     encoder_forward_cpu zeroBuf inp_c wte_c wpe_c 2 2 2 7 = 21) ∧
    (encoder_forward1 zeroBuf inp_c wte_c wpe_c 2 2 2 256 0 = 11 ∧
     encoder_forward1 zeroBuf inp_c wte_c wpe_c 2 2 2 256 1 = 11 ∧
     encoder_forward1 zeroBuf inp_c wte_c wpe_c 2 2 2 256 2 = 22 ∧
     encoder_forward1 zeroBuf inp_c wte_c wpe_c 2 2 2 256 3 = 22 ∧
     encoder_forward1 zeroBuf inp_c wte_c wpe_c 2 2 2 256 4 = 13 ∧
     encoder_forward1 zeroBuf inp_c wte_c wpe_c 2 2 2 256 5 = 13 ∧
     encoder_forward1 zeroBuf inp_c wte_c wpe_c 2 2 2 256 6 = 21 ∧
     encoder_forward1 zeroBuf inp_c wte_c wpe_c 2 2 2 256 7 = 21) ∧
    (encoder_forward2 zeroBuf inp_c wte_c wpe_c 2 2 2 256 0 = 11 ∧
     encoder_forward2 zeroBuf inp_c wte_c wpe_c 2 2 2 256 1 = 11 ∧
     encoder_forward2 zeroBuf inp_c wte_c wpe_c 2 2 2 256 2 = 22 ∧
     encoder_forward2 zeroBuf inp_c wte_c wpe_c 2 2 2 256 3 = 22 ∧
     encoder_forward2 zeroBuf inp_c wte_c wpe_c 2 2 2 256 4 = 13 ∧
     encoder_forward2 zeroBuf inp_c wte_c wpe_c 2 2 2 256 5 = 13 ∧
     encoder_forward2 zeroBuf inp_c wte_c wpe_c 2 2 2 256 6 = 21 ∧
     encoder_forward2 zeroBuf inp_c wte_c wpe_c 2 2 2 256 7 = 21) := by
  refine ⟨⟨?_, ?_, ?_, ?_, ?_, ?_, ?_, ?_⟩, ⟨?_, ?_, ?_, ?_, ?_, ?_, ?_, ?_⟩,
    ⟨?_, ?_, ?_, ?_, ?_, ?_, ?_, ?_⟩⟩
  all_goals first
    | (rw [encoder_forward_cpu_apply, if_pos (by norm_num)]
       norm_num [outVal, inp_c, wte_c, wpe_c, List.getD])
    | (rw [encoder_forward1_apply zeroBuf inp_c wte_c wpe_c 2 2 2 256
          (by norm_num), if_pos (by norm_num)]
       norm_num [outVal, inp_c, wte_c, wpe_c, List.getD])
    | (rw [encoder_forward2_apply zeroBuf inp_c wte_c wpe_c 2 2 2 256
          (by norm_num), if_pos (by norm_num)]
       norm_num [outVal, inp_c, wte_c, wpe_c, List.getD])

/-- Claim C8: the byte count of every benchmark iteration is
`B*T*C*4*4`; at the program's fixed `B=8, T=1024, C=768` the product is
exactly 100663296 and no 32-bit step wraps before the widening to `long`. -/
theorem claim_C8_benchmark_byte_count :
    (∀ x ∈ benchmark_memory_ops 8 1024 768, x = 100663296) ∧
    memory_ops 8 1024 768 = 100663296 ∧
    (100663296 : Int) = 8 * 1024 * 768 * 4 * 4 ∧
    int32_mul 8 1024 = 8 * 1024 ∧
    int32_mul (8 * 1024) 768 = 8 * 1024 * 768 ∧
    int32_mul (8 * 1024 * 768) 4 = 8 * 1024 * 768 * 4 ∧
    int32_mul (8 * 1024 * 768 * 4) 4 = 8 * 1024 * 768 * 4 * 4 := by
  decide

/-- Witness for C8: the first benchmark iteration uses exactly 100663296
bytes. -/
theorem claim_C8_witness : memory_ops 8 1024 768 = 100663296 :=
  claim_C8_benchmark_byte_count.1 (memory_ops 8 1024 768) (by decide)

/-- Claim C9: kernel 2's decomposition is a bijection between worker indices
in `[0, B*T*C)` and coordinate triples, and re-encoding a worker's triple
gives back its own index, so every output offset is written by exactly one
active worker. -/
theorem claim_C9_kernel2_index_bijection (B T C : Nat)
    (hB : 1 ≤ B) (hT : 1 ≤ T) (hC : 1 ≤ C) :
    (∀ idx, idx < B * T * C →
      (kernel2_decode T C idx).1 < B ∧ (kernel2_decode T C idx).2.1 < T ∧
      (kernel2_decode T C idx).2.2 < C ∧
      (kernel2_decode T C idx).1 * T * C + (kernel2_decode T C idx).2.1 * C +
        (kernel2_decode T C idx).2.2 = idx) ∧
    (∀ idx1, idx1 < B * T * C → ∀ idx2, idx2 < B * T * C →
      kernel2_decode T C idx1 = kernel2_decode T C idx2 → idx1 = idx2) ∧
    (∀ b, b < B → ∀ t, t < T → ∀ c, c < C →
      b * T * C + t * C + c < B * T * C ∧
      kernel2_decode T C (b * T * C + t * C + c) = (b, t, c)) := by
  refine ⟨fun idx hidx => ?_, fun idx1 h1 idx2 h2 heq => ?_,
    fun b hb t ht c hc => ?_⟩
  · obtain ⟨hb, ht, hc⟩ := kernel2_decode_lt B T C idx hidx
    simp only [kernel2_decode]
    exact ⟨hb, ht, hc, kernel2_offset_eq T C idx⟩
  · have e1 := kernel2_offset_eq T C idx1
    have e2 := kernel2_offset_eq T C idx2
    simp only [kernel2_decode, Prod.mk.injEq] at heq
    obtain ⟨ha, hb', hc'⟩ := heq
    rw [← e1, ha, hb', hc']
    exact e2
  · have hlt := flat_index_lt b t c B T C hb ht hc
    have hbr : b * (T * C) = b * T * C := by ring
    obtain ⟨hd, hdd, hmt, hmc⟩ :=
      window_decode b t T C (b * T * C + t * C + c) ht (by omega) (by omega)
    have hcc : b * T * C + t * C + c - (b * (T * C) + t * C) = c := by omega
    refine ⟨hlt, ?_⟩
    simp only [kernel2_decode]
    rw [hdd, hmt, hmc, hcc]

/-- Witness for C9 at `B = T = C = 2`: worker 5 decodes to `(1, 0, 1)`. -/
theorem claim_C9_witness :
    kernel2_decode 2 2 (1 * 2 * 2 + 0 * 2 + 1) = (1, 0, 1) :=
  ((claim_C9_kernel2_index_bijection 2 2 2 (by norm_num) (by norm_num)
    (by norm_num)).2.2 1 (by norm_num) 0 (by norm_num) 1 (by norm_num)).2

/-- Claim C10: the selector is `atoi(argv[1])` when an argument is present
and 2 otherwise; any selector other than 1 and 2 — in particular the 0 that
`atoi` yields for a string with no digits — makes `main` exit with status 1
through the dispatcher, before any validation or timing. -/
theorem claim_C10_selector_from_atoi (s : String) (out d_out : Buf)
    (inp : Nat → Nat) (wte wpe : Buf) (B T C : Nat) :
    main_kernel_num (some s) = atoi s ∧
    main_kernel_num none = 2 ∧
    (atoi s ≠ 1 → atoi s ≠ 2 →
      main_run (some s) out d_out inp wte wpe B T C =
        MainOutcome.exitedAtDispatch "Invalid kernel number\n" 1) ∧
    ((∀ ch ∈ s.data, ch.isDigit = false) → atoi s = 0) := by
  refine ⟨rfl, rfl, fun h1 h2 => ?_, fun hnd => ?_⟩
  · simp only [main_run, main_kernel_num, encoder_forward, if_neg h1,
      if_neg h2]
  · have hsub : ∀ ch ∈ s.data.dropWhile isSpace, ch.isDigit = false :=
      fun ch hch => hnd ch (List.Sublist.subset (List.dropWhile_sublist _) hch)
    simp only [atoi]
    cases hcase : s.data.dropWhile isSpace with
    | nil => rfl
    | cons ch rest =>
      have hrest : ∀ c2 ∈ rest, c2.isDigit = false := fun c2 hc2 =>
        hsub c2 (by rw [hcase]; exact List.mem_cons_of_mem _ hc2)
      have hall : ∀ c2 ∈ ch :: rest, c2.isDigit = false := fun c2 hc2 =>
        hsub c2 (by rw [hcase]; exact hc2)
      show (if ch = '-' then -(atoiDigits rest 0 : Int)
        else if ch = '+' then (atoiDigits rest 0 : Int)
        else (atoiDigits (ch :: rest) 0 : Int)) = 0
      by_cases hminus : ch = '-'
      · rw [if_pos hminus, atoiDigits_no_digit rest 0 hrest]
        norm_num
      · by_cases hplus : ch = '+'
        · rw [if_neg hminus, if_pos hplus, atoiDigits_no_digit rest 0 hrest]
          norm_num
        · rw [if_neg hminus, if_neg hplus,
            atoiDigits_no_digit (ch :: rest) 0 hall]
          norm_num

/-- Witness for C10: the non-numeric argument "abc" maps to selector 0 and
the run exits with status 1 at the dispatcher. -/
theorem claim_C10_witness :
    main_run (some "abc") zeroBuf zeroBuf (fun _ => 0) zeroBuf zeroBuf 1 1 1 =
      MainOutcome.exitedAtDispatch "Invalid kernel number\n" 1 :=
  (claim_C10_selector_from_atoi "abc" zeroBuf zeroBuf (fun _ => 0) zeroBuf
    zeroBuf 1 1 1).2.2.1 (by decide) (by decide)

end Claims
